import Mathlib

/-!
# Verification of the halo2-examples range-check and gadget library

Shallow embedding of the gadgets in `src/`:

* `src/decompose/helpers.rs` — `lebs2ip`, `compute_running_sum`;
* `src/decompose/decompose_range_check.rs` — `RangeTableConfig::load`,
  `DecomposeConfig::assign` (the running-sum range check);
* `src/range_check/example1.rs`, `src/range_check/example2.rs` — the small
  range-check gate expressions and the lookup table;
* `src/gadgets/is_zero.rs`, `src/gadgets/is_equal.rs` — the zero-test and
  equality gadgets.

Field elements of the prime field `F` (pasta `Fp` in the tests) are modelled
as `ZMod p` for a prime `p` where the integer interpretation of a field
element matters (`to_le_bits` takes the bits of the canonical representative
`ZMod.val`), and as a generic `Field F` where the code is purely algebraic.
Machine integers (`u64` in `lebs2ip`) are modelled as `ℕ`; the source asserts
`bits.len() <= 64`, under which the `u64` arithmetic never overflows, so the
`ℕ` model is exact there.
-/

namespace Halo2Examples

/-- `lebs2ip` (src/decompose/helpers.rs, lines 4-9): fold over the
little-endian bit list with index, `acc + (if b then 1 << i else 0)`. -/
def lebs2ip (bits : List Bool) : ℕ :=
  bits.enum.foldl (fun acc ib => acc + if ib.2 then 2 ^ ib.1 else 0) 0

/-- Structural little-endian value of a bit list; recursion-friendly
companion of `lebs2ip` (proved equal below). -/
def leVal : List Bool → ℕ
  | [] => 0
  | b :: bs => (if b then 1 else 0) + 2 * leVal bs

/-- Rust's `slice::chunks(k)`: split a list into consecutive chunks of `k`
elements, the last chunk possibly shorter.  (`chunks(0)` panics in Rust; the
`k = 0` branch here returns the whole list as one chunk and is never reached
under the preconditions used below.) -/
def chunks (k : ℕ) : List α → List (List α)
  | [] => []
  | a :: as =>
    if _hk : k = 0 then [a :: as]
    else (a :: as).take k :: chunks k ((a :: as).drop k)
termination_by l => l.length
decreasing_by
  simp only [List.length_drop, List.length_cons]
  omega

/-- The little-endian bit representation of the canonical representative of
`value`, truncated to the lowest `num_bits` bits
(`value.evaluate().to_le_bits().iter().by_vals().take(num_bits)`). -/
def leBits (v : ℕ) (num_bits : ℕ) : List Bool :=
  (List.range num_bits).map (fun i => v.testBit i)

/-- The K-bit limbs of `value` as natural numbers: the chunked bit list of
`compute_running_sum`, each chunk assembled by `lebs2ip`. -/
def natLimbs (v : ℕ) (num_bits lookup_num_bits : ℕ) : List ℕ :=
  (chunks lookup_num_bits (leBits v num_bits)).map lebs2ip

/-- The running-sum loop body of `compute_running_sum`
(src/decompose/helpers.rs, lines 28-33): starting from `z`, for each chunk
`c` set `z := (z - c) * inv` and record it. -/
def runningSumFrom {F : Type} [Field F] (inv : F) (z : F) : List F → List F
  | [] => []
  | c :: cs =>
    let z1 := (z - c) * inv
    z1 :: runningSumFrom inv z1 cs

/-- `compute_running_sum` (src/decompose/helpers.rs, lines 12-37): the
interstitial running-sum values `{z_1, ..., z_C}` for `value` over the prime
field `ZMod p`, with `z_{i+1} = (z_i - c_i) * 2^{-K}`. -/
def compute_running_sum (p : ℕ) [Fact p.Prime] (value : ZMod p)
    (num_bits lookup_num_bits : ℕ) : List (ZMod p) :=
  runningSumFrom ((2 ^ lookup_num_bits : ZMod p)⁻¹) value
    (List.map (fun c => ((c : ℕ) : ZMod p))
      (natLimbs value.val num_bits lookup_num_bits))

/-- The whole running-sum column `z_0, z_1, ..., z_C` assigned by
`DecomposeConfig::assign`: the copied-in `value` followed by the
interstitial values. -/
def runningSumSeq (p : ℕ) [Fact p.Prime] (value : ZMod p)
    (num_bits lookup_num_bits : ℕ) : List (ZMod p) :=
  value :: compute_running_sum p value num_bits lookup_num_bits

/-- The terminal running-sum value `z_C` (`z_0 = value` itself when the
decomposition is empty). -/
def terminalZ (p : ℕ) [Fact p.Prime] (value : ZMod p)
    (num_bits lookup_num_bits : ℕ) : ZMod p :=
  (runningSumSeq p value num_bits lookup_num_bits).getLast (by
    simp [runningSumSeq])

/-- `DecomposeConfig::assign` (src/decompose/decompose_range_check.rs,
lines 125-158), modelled on the witness side: first the eager
`assert_eq!(num_bits % lookup_num_bits, 0)` (a Rust panic, modelled as
`none`), then the running-sum column is computed and assigned; the helper's
own `assert_eq!(running_sum.len(), num_bits / lookup_num_bits)` is the inner
guard.  Returns the assigned running-sum column. -/
def decomposeAssign (p : ℕ) [Fact p.Prime] (value : ZMod p)
    (num_bits lookup_num_bits : ℕ) : Option (List (ZMod p)) :=
  if num_bits % lookup_num_bits = 0 then
    let rs := compute_running_sum p value num_bits lookup_num_bits
    if rs.length = num_bits / lookup_num_bits then some (value :: rs)
    else none
  else none

/-- `RangeTableConfig::load` (src/decompose/decompose_range_check.rs,
lines 63-70): the lookup-table column holds `F::from(value)` for
`value in 0..RANGE`, in order. -/
def rangeTableLoad (p : ℕ) [Fact p.Prime] (RANGE : ℕ) : List (ZMod p) :=
  List.map (fun i => ((i : ℕ) : ZMod p)) (List.range RANGE)

/-- `RangeTableConfig::load` (src/range_check/example2.rs, lines 38-45): the
table built with parameter `K = NUM_BITS` holds `0..(1 << NUM_BITS)`. -/
def rangeTable (p : ℕ) [Fact p.Prime] (K : ℕ) : List (ZMod p) :=
  rangeTableLoad p (2 ^ K)

/-! ## Basic lemmas about the bit-level helpers -/

theorem foldl_enumFrom_lebs2ip (bits : List Bool) :
    ∀ (n acc : ℕ),
      (List.enumFrom n bits).foldl
          (fun acc ib => acc + if ib.2 then 2 ^ ib.1 else 0) acc
        = acc + 2 ^ n * leVal bits := by
  induction bits with
  | nil => intro n acc; simp [leVal]
  | cons b bs ih =>
    intro n acc
    simp only [List.enumFrom, List.foldl_cons, leVal, ih (n + 1)]
    cases b <;> simp [pow_succ] <;> ring

/-- `lebs2ip` agrees with the structural little-endian value. -/
theorem lebs2ip_eq_leVal (bits : List Bool) : lebs2ip bits = leVal bits := by
  have h := foldl_enumFrom_lebs2ip bits 0 0
  simpa [lebs2ip, List.enum] using h

/-- The value of a bit list is bounded by `2 ^ length`
(so `lebs2ip` on a chunk of at most 64 bits never overflows `u64`). -/
theorem leVal_lt (bits : List Bool) : leVal bits < 2 ^ bits.length := by
  induction bits with
  | nil => simp [leVal]
  | cons b bs ih =>
    cases b <;> simp [leVal, List.length_cons, pow_succ] <;> omega

theorem leVal_append (l₁ l₂ : List Bool) :
    leVal (l₁ ++ l₂) = leVal l₁ + 2 ^ l₁.length * leVal l₂ := by
  induction l₁ with
  | nil => simp [leVal]
  | cons b bs ih =>
    simp only [List.cons_append, List.append_eq, leVal, ih, List.length_cons,
      pow_succ]
    ring

theorem leBits_succ (v N : ℕ) :
    leBits v (N + 1) = v.testBit 0 :: leBits (v / 2) N := by
  simp only [leBits, List.range_succ_eq_map, List.map_cons, List.map_map]
  congr 1
  apply List.map_congr_left
  intro i _
  simp [Function.comp, Nat.testBit_succ]

/-- The truncated bit list reconstructs `v % 2 ^ N`: truncation at step 1 of
the decomposition keeps exactly the low `N` bits. -/
theorem leVal_leBits (N : ℕ) : ∀ v : ℕ, leVal (leBits v N) = v % 2 ^ N := by
  induction N with
  | zero => intro v; simp [leBits, leVal, Nat.mod_one]
  | succ N ih =>
    intro v
    rw [leBits_succ, leVal, ih (v / 2)]
    have h : v % (2 * 2 ^ N) = v % 2 + 2 * (v / 2 % 2 ^ N) := Nat.mod_mul
    have hbit : (if v.testBit 0 then 1 else 0) = v % 2 := by
      rcases Nat.mod_two_eq_zero_or_one v with h0 | h1
      · simp [Nat.testBit_zero, h0]
      · simp [Nat.testBit_zero, h1]
    rw [hbit]
    rw [pow_succ, mul_comm (2 ^ N) 2]
    omega

theorem leBits_length (v N : ℕ) : (leBits v N).length = N := by
  simp [leBits]

/-! ## Lemmas about `chunks` -/

theorem chunks_nil (k : ℕ) : chunks k ([] : List α) = [] := by
  simp [chunks]

theorem chunks_cons (k : ℕ) (hk : k ≠ 0) (a : α) (as : List α) :
    chunks k (a :: as) = (a :: as).take k :: chunks k ((a :: as).drop k) := by
  rw [chunks, dif_neg hk]

/-- Every chunk produced by `chunks k` has length at most `k`. -/
theorem chunks_mem_length_le (k : ℕ) (hk : k ≠ 0) :
    ∀ (l : List α), ∀ c ∈ chunks k l, c.length ≤ k
  | [] => by simp [chunks_nil]
  | a :: as => by
    rw [chunks_cons k hk]
    intro c hc
    rcases List.mem_cons.mp hc with h | h
    · subst h
      simp [List.length_take_le]
    · exact chunks_mem_length_le k hk ((a :: as).drop k) c h
  termination_by l => l.length
  decreasing_by simp only [List.length_drop, List.length_cons]; omega

/-- When `k` divides the length, `chunks` produces exactly `length / k`
chunks (the assertion in `compute_running_sum`). -/
theorem chunks_length_of_dvd (k : ℕ) (hk : k ≠ 0) :
    ∀ (l : List α), k ∣ l.length → (chunks k l).length = l.length / k
  | [] => by simp [chunks_nil]
  | a :: as => by
    intro hdvd
    rw [chunks_cons k hk]
    have hlen : k ≤ (a :: as).length := by
      rcases hdvd with ⟨c, hc⟩
      rcases Nat.eq_zero_or_pos c with h0 | h0
      · simp [h0] at hc
      · calc k = k * 1 := by ring
          _ ≤ k * c := Nat.mul_le_mul_left k h0
          _ = (a :: as).length := hc.symm
    have hdvd' : k ∣ ((a :: as).drop k).length := by
      simp only [List.length_drop]
      exact (Nat.dvd_sub' hdvd dvd_rfl)
    have hk0 : 0 < k := Nat.pos_of_ne_zero hk
    have h1 : (a :: as).length = ((a :: as).length - k) + k := by omega
    rw [List.length_cons, chunks_length_of_dvd k hk ((a :: as).drop k) hdvd',
      List.length_drop]
    conv_rhs => rw [h1]
    rw [Nat.add_div_right _ hk0]
  termination_by l => l.length
  decreasing_by simp only [List.length_drop, List.length_cons]; omega

/-! ## Running-sum algebra -/

/-- Little-endian base-`r` value of a list of field elements:
`c_0 + r * c_1 + r^2 * c_2 + ...`. -/
def evalBase {F : Type} [Field F] (r : F) : List F → F
  | [] => 0
  | c :: cs => c + r * evalBase r cs

/-- Little-endian base-`r` value of a list of naturals. -/
def evalBaseNat (r : ℕ) : List ℕ → ℕ
  | [] => 0
  | c :: cs => c + r * evalBaseNat r cs

theorem evalBase_natCast (p : ℕ) [Fact p.Prime] (r : ℕ) (cs : List ℕ) :
    evalBase (r : ZMod p) (List.map (fun c => ((c : ℕ) : ZMod p)) cs)
      = ((evalBaseNat r cs : ℕ) : ZMod p) := by
  induction cs with
  | nil => simp [evalBase, evalBaseNat]
  | cons c cs ih =>
    simp only [List.map_cons, evalBase, evalBaseNat, ih]
    push_cast
    ring

/-- Reassembling the chunks of a bit list in base `2 ^ k` recovers the value
of the whole bit list. -/
theorem evalBaseNat_chunks (k : ℕ) (hk : k ≠ 0) :
    ∀ l : List Bool, evalBaseNat (2 ^ k) ((chunks k l).map leVal) = leVal l
  | [] => by simp [chunks_nil, evalBaseNat, leVal]
  | a :: as => by
    rw [chunks_cons k hk, List.map_cons]
    simp only [evalBaseNat]
    rw [evalBaseNat_chunks k hk ((a :: as).drop k)]
    rcases le_or_lt (a :: as).length k with hle | hlt
    · rw [List.take_of_length_le hle, List.drop_of_length_le hle]
      simp [leVal]
    · have htake : ((a :: as).take k).length = k := by
        rw [List.length_take]; omega
      conv_rhs => rw [← List.take_append_drop k (a :: as)]
      rw [leVal_append, htake]
  termination_by l => l.length
  decreasing_by simp only [List.length_drop, List.length_cons]; omega

theorem runningSumFrom_length {F : Type} [Field F] (inv : F) :
    ∀ (z : F) (cs : List F), (runningSumFrom inv z cs).length = cs.length
  | _, [] => rfl
  | z, c :: cs => by
    simp only [runningSumFrom, List.length_cons]
    rw [runningSumFrom_length inv ((z - c) * inv) cs]

/-- Closed form of the terminal running-sum value: telescoping gives
`z_C = (z_0 - Σ_i c_i r^i) * r^{-C}` whenever `r * inv = 1`. -/
theorem runningSumFrom_getLast {F : Type} [Field F] (r inv : F)
    (hr : r * inv = 1) :
    ∀ (z : F) (cs : List F),
      (z :: runningSumFrom inv z cs).getLast (List.cons_ne_nil z _)
        = (z - evalBase r cs) * inv ^ cs.length
  | z, [] => by simp [runningSumFrom, evalBase]
  | z, c :: cs => by
    have htail := runningSumFrom_getLast r inv hr ((z - c) * inv) cs
    have hne : (((z - c) * inv) :: runningSumFrom inv ((z - c) * inv) cs) ≠
        [] := List.cons_ne_nil _ _
    calc (z :: runningSumFrom inv z (c :: cs)).getLast (List.cons_ne_nil z _)
        = (((z - c) * inv) ::
            runningSumFrom inv ((z - c) * inv) cs).getLast hne := by
          simp only [runningSumFrom]
          exact List.getLast_cons hne
      _ = (((z - c) * inv) - evalBase r cs) * inv ^ cs.length := htail
      _ = (z - evalBase r (c :: cs)) * inv ^ (c :: cs).length := by
          simp only [evalBase, List.length_cons, pow_succ]
          linear_combination (inv ^ cs.length * evalBase r cs) * hr

/-- In a prime field of characteristic other than 2, `2 ^ K` is nonzero
(so the `2^{-K}` used by the running sum is a genuine inverse). -/
theorem two_pow_ne_zero (p : ℕ) [hp : Fact p.Prime] (hp2 : p ≠ 2) (K : ℕ) :
    (2 ^ K : ZMod p) ≠ 0 := by
  have h2 : (2 : ZMod p) ≠ 0 := by
    intro h
    have hdvd : p ∣ 2 := by
      have : ((2 : ℕ) : ZMod p) = 0 := by exact_mod_cast h
      exact (ZMod.natCast_zmod_eq_zero_iff_dvd 2 p).mp this
    exact hp2 ((Nat.prime_dvd_prime_iff_eq hp.out Nat.prime_two).mp hdvd)
  exact pow_ne_zero K h2

/-- The reassembled limbs equal the truncated value: step 1 of the
decomposition truncates to the low `N` bits, and the limb sequence
reinterpreted little-endian in base `2^K` is exactly `value.val % 2^N`. -/
theorem evalBaseNat_natLimbs (v N K : ℕ) (hK : K ≠ 0) :
    evalBaseNat (2 ^ K) (natLimbs v N K) = v % 2 ^ N := by
  unfold natLimbs
  have hmap : (chunks K (leBits v N)).map lebs2ip
      = (chunks K (leBits v N)).map leVal :=
    List.map_congr_left (fun c _ => lebs2ip_eq_leVal c)
  rw [hmap, evalBaseNat_chunks K hK (leBits v N), leVal_leBits]

/-- Closed form for the terminal running-sum value of the Decomposer:
`z_C = (value - (value.val mod 2^N)) * (2^{-K})^C`. -/
theorem terminalZ_closed_form (p : ℕ) [Fact p.Prime] (hp2 : p ≠ 2)
    (value : ZMod p) (N K : ℕ) (hK : K ≠ 0) :
    terminalZ p value N K
      = (value - ((value.val % 2 ^ N : ℕ) : ZMod p))
          * ((2 ^ K : ZMod p)⁻¹) ^ (natLimbs value.val N K).length := by
  have h2K : (2 ^ K : ZMod p) ≠ 0 := two_pow_ne_zero p hp2 K
  have hr : (2 ^ K : ZMod p) * (2 ^ K : ZMod p)⁻¹ = 1 := mul_inv_cancel₀ h2K
  unfold terminalZ runningSumSeq compute_running_sum
  rw [runningSumFrom_getLast (2 ^ K : ZMod p) _ hr value]
  have hcast : ((2 ^ K : ℕ) : ZMod p) = (2 ^ K : ZMod p) := by push_cast; rfl
  rw [← hcast, evalBase_natCast p (2 ^ K) (natLimbs value.val N K),
    evalBaseNat_natLimbs value.val N K hK, List.length_map]

/-! ## Claims about the Decomposer -/

instance fact_prime_101 : Fact (Nat.Prime 101) := ⟨by norm_num⟩

/-- C1: for every `N` a multiple of `K` and every field element `value`
whose integer interpretation satisfies `value.val < 2^N`, the running sum
computed by the Decomposer (`z_0 = value`, `z_{i+1} = (z_i - c_i) * 2^{-K}`)
has terminal element `z_C` equal to the field zero: the decomposition
succeeds. -/
theorem decompose_in_range_terminal_zero (p : ℕ) [hp : Fact p.Prime]
    (hp2 : p ≠ 2) (value : ZMod p) (N K : ℕ) (hK : K ≠ 0) (_hdvd : K ∣ N)
    (hval : value.val < 2 ^ N) :
    terminalZ p value N K = 0 := by
  haveI : NeZero p := ⟨hp.out.ne_zero⟩
  rw [terminalZ_closed_form p hp2 value N K hK, Nat.mod_eq_of_lt hval,
    ZMod.natCast_zmod_val value]
  simp

theorem decompose_in_range_terminal_zero_witness :
    ((101 : ℕ) ≠ 2 ∧ (2 : ℕ) ≠ 0 ∧ (2 : ℕ) ∣ 4 ∧ (5 : ZMod 101).val < 2 ^ 4)
      ∧ terminalZ 101 (5 : ZMod 101) 4 2 = 0 :=
  ⟨⟨by decide, by decide, by decide, by decide⟩,
    decompose_in_range_terminal_zero 101 (by decide) 5 4 2 (by decide)
      (by decide) (by decide)⟩

/-- C2: for every `N` a multiple of `K` and every field element `value`
whose integer interpretation is at least `2^N`, the terminal running-sum
value `z_C` is nonzero (the low `N` bits are truncated in step 1 but `z_0`
anchors the untruncated value), so the terminal `z_C = 0` constraint is
unsatisfied. -/
theorem decompose_out_of_range_terminal_nonzero (p : ℕ) [hp : Fact p.Prime]
    (hp2 : p ≠ 2) (value : ZMod p) (N K : ℕ) (hK : K ≠ 0) (_hdvd : K ∣ N)
    (hval : 2 ^ N ≤ value.val) :
    terminalZ p value N K ≠ 0 := by
  haveI : NeZero p := ⟨hp.out.ne_zero⟩
  have h2K : (2 ^ K : ZMod p) ≠ 0 := two_pow_ne_zero p hp2 K
  rw [terminalZ_closed_form p hp2 value N K hK]
  apply mul_ne_zero
  · have hle : value.val % 2 ^ N ≤ value.val := Nat.mod_le _ _
    have hfac : value - ((value.val % 2 ^ N : ℕ) : ZMod p)
        = ((value.val - value.val % 2 ^ N : ℕ) : ZMod p) := by
      rw [Nat.cast_sub hle, ZMod.natCast_zmod_val value]
    rw [hfac]
    intro h0
    have hdvd' : p ∣ value.val - value.val % 2 ^ N :=
      (ZMod.natCast_zmod_eq_zero_iff_dvd _ p).mp h0
    have hmodlt : value.val % 2 ^ N < 2 ^ N :=
      Nat.mod_lt _ (Nat.two_pow_pos N)
    have hpos : 0 < value.val - value.val % 2 ^ N := by omega
    have hlt : value.val - value.val % 2 ^ N < p :=
      lt_of_le_of_lt (Nat.sub_le _ _) (ZMod.val_lt value)
    exact absurd (Nat.le_of_dvd hpos hdvd') (by omega)
  · exact pow_ne_zero _ (inv_ne_zero h2K)

theorem decompose_out_of_range_terminal_nonzero_witness :
    ((101 : ℕ) ≠ 2 ∧ (2 : ℕ) ≠ 0 ∧ (2 : ℕ) ∣ 4 ∧ 2 ^ 4 ≤ (20 : ZMod 101).val)
      ∧ terminalZ 101 (20 : ZMod 101) 4 2 ≠ 0 :=
  ⟨⟨by decide, by decide, by decide, by decide⟩,
    decompose_out_of_range_terminal_nonzero 101 (by decide) 20 4 2 (by decide)
      (by decide) (by decide)⟩

/-- The defining recurrence of the running sum, index-wise: each element of
`z :: runningSumFrom inv z cs` after the first is the previous one minus the
matching chunk, times `inv`. -/
theorem runningSumFrom_get {F : Type} [Field F] (inv : F) :
    ∀ (z : F) (cs : List F) (i : ℕ) (h1 : i < cs.length)
      (h0 : i < (z :: runningSumFrom inv z cs).length)
      (h2 : i + 1 < (z :: runningSumFrom inv z cs).length),
      (z :: runningSumFrom inv z cs).get ⟨i + 1, h2⟩
        = ((z :: runningSumFrom inv z cs).get ⟨i, h0⟩ - cs.get ⟨i, h1⟩) * inv
  | z, c :: cs, 0, h1, h0, h2 => by
    simp [runningSumFrom]
  | z, c :: cs, i + 1, h1, h0, h2 => by
    have h1' : i < cs.length := by
      simpa using Nat.lt_of_succ_lt_succ h1
    have hlen := runningSumFrom_length inv ((z - c) * inv) cs
    have h0' : i < (((z - c) * inv) ::
        runningSumFrom inv ((z - c) * inv) cs).length := by
      simp only [List.length_cons, hlen]
      omega
    have h2' : i + 1 < (((z - c) * inv) ::
        runningSumFrom inv ((z - c) * inv) cs).length := by
      simp only [List.length_cons, hlen]
      omega
    have ih := runningSumFrom_get inv ((z - c) * inv) cs i h1' h0' h2'
    simp only [runningSumFrom, List.get_cons_succ]
    exact ih

/-- C3: for every adjacent pair of the Decomposer's running-sum column the
invariant `z_{i+1} = (z_i - c_i) * 2^{-K}` holds, with `c_i` the field image
of the `i`-th K-bit limb of the truncated value; and for `value.val < 2^N`
the limb sequence reinterpreted little-endian in base `2^K` reconstructs
`value.val` exactly. -/
theorem running_sum_invariant_and_reconstruction (p : ℕ) [Fact p.Prime]
    (value : ZMod p) (N K : ℕ) (hK : K ≠ 0) :
    (∀ (i : ℕ) (h1 : i < (natLimbs value.val N K).length)
        (h0 : i < (runningSumSeq p value N K).length)
        (h2 : i + 1 < (runningSumSeq p value N K).length),
        (runningSumSeq p value N K).get ⟨i + 1, h2⟩
          = ((runningSumSeq p value N K).get ⟨i, h0⟩
              - (((natLimbs value.val N K).get ⟨i, h1⟩ : ℕ) : ZMod p))
            * (2 ^ K : ZMod p)⁻¹)
    ∧ (value.val < 2 ^ N →
        evalBaseNat (2 ^ K) (natLimbs value.val N K) = value.val) := by
  constructor
  · intro i h1 h0 h2
    have h1' : i < (List.map (fun c => ((c : ℕ) : ZMod p))
        (natLimbs value.val N K)).length := by
      simpa using h1
    have key := runningSumFrom_get ((2 ^ K : ZMod p)⁻¹) value
      (List.map (fun c => ((c : ℕ) : ZMod p)) (natLimbs value.val N K))
      i h1' (by simpa [runningSumSeq, compute_running_sum] using h0)
      (by simpa [runningSumSeq, compute_running_sum] using h2)
    have hget : (List.map (fun c => ((c : ℕ) : ZMod p))
          (natLimbs value.val N K)).get ⟨i, h1'⟩
        = (((natLimbs value.val N K).get ⟨i, h1⟩ : ℕ) : ZMod p) := by
      simp
    rw [hget] at key
    exact key
  · intro hval
    rw [evalBaseNat_natLimbs value.val N K hK, Nat.mod_eq_of_lt hval]

theorem running_sum_invariant_and_reconstruction_witness :
    ((2 : ℕ) ≠ 0)
      ∧ ((∀ (i : ℕ) (h1 : i < (natLimbs (13 : ZMod 101).val 4 2).length)
          (h0 : i < (runningSumSeq 101 (13 : ZMod 101) 4 2).length)
          (h2 : i + 1 < (runningSumSeq 101 (13 : ZMod 101) 4 2).length),
          (runningSumSeq 101 (13 : ZMod 101) 4 2).get ⟨i + 1, h2⟩
            = ((runningSumSeq 101 (13 : ZMod 101) 4 2).get ⟨i, h0⟩
                - (((natLimbs (13 : ZMod 101).val 4 2).get ⟨i, h1⟩ : ℕ)
                    : ZMod 101))
              * (2 ^ 2 : ZMod 101)⁻¹)
        ∧ ((13 : ZMod 101).val < 2 ^ 4 →
            evalBaseNat (2 ^ 2) (natLimbs (13 : ZMod 101).val 4 2)
              = (13 : ZMod 101).val)) :=
  ⟨by decide,
    running_sum_invariant_and_reconstruction 101 (13 : ZMod 101) 4 2
      (by decide)⟩

/-- The assertion inside `compute_running_sum`: under the multiple-of-K
precondition the number of interstitial values is exactly
`num_bits / lookup_num_bits`. -/
theorem compute_running_sum_length (p : ℕ) [Fact p.Prime] (value : ZMod p)
    (N K : ℕ) (hK : K ≠ 0) (hdvd : K ∣ N) :
    (compute_running_sum p value N K).length = N / K := by
  unfold compute_running_sum
  rw [runningSumFrom_length, List.length_map]
  unfold natLimbs
  rw [List.length_map, chunks_length_of_dvd K hK (leBits value.val N)
    (by rw [leBits_length]; exact hdvd), leBits_length]

/-- C9: `decompose` requires `N` to be an exact multiple of `K`; violating
the precondition is detected eagerly (the assignment aborts and no
running-sum column is produced), and under the precondition the failure
branches are unreachable and the assignment completes with the full
running-sum column. -/
theorem decompose_assign_precondition (p : ℕ) [Fact p.Prime]
    (value : ZMod p) (N K : ℕ) (hK : K ≠ 0) :
    (N % K ≠ 0 → decomposeAssign p value N K = none)
    ∧ (N % K = 0 →
        decomposeAssign p value N K = some (runningSumSeq p value N K)) := by
  constructor
  · intro hmod
    unfold decomposeAssign
    rw [if_neg hmod]
  · intro hmod
    have hdvd : K ∣ N := Nat.dvd_of_mod_eq_zero hmod
    unfold decomposeAssign
    rw [if_pos hmod]
    simp only [compute_running_sum_length p value N K hK hdvd, if_pos rfl]
    rfl

theorem decompose_assign_precondition_witness :
    ((2 : ℕ) ≠ 0 ∧ (6 : ℕ) % 2 = 0 ∧ (7 : ℕ) % 2 ≠ 0)
      ∧ decomposeAssign 101 (9 : ZMod 101) 6 2
          = some (runningSumSeq 101 (9 : ZMod 101) 6 2)
      ∧ decomposeAssign 101 (9 : ZMod 101) 7 2 = none :=
  ⟨⟨by decide, by decide, by decide⟩,
    (decompose_assign_precondition 101 (9 : ZMod 101) 6 2 (by decide)).2
      (by decide),
    (decompose_assign_precondition 101 (9 : ZMod 101) 7 2 (by decide)).1
      (by decide)⟩

/-- C10: every limb produced during running-sum computation lies in
`[0, 2^K)` — each chunk of the little-endian bit decomposition has at most
`K` bits, so the integer `lebs2ip` assembles is strictly below `2^K` — and
hence every honestly computed limb is a member of the Range Lookup Table
built with the same `K`. -/
theorem limbs_lt_and_in_table (p : ℕ) [Fact p.Prime] (v N K : ℕ)
    (hK : K ≠ 0) :
    ∀ c ∈ natLimbs v N K, c < 2 ^ K ∧ ((c : ℕ) : ZMod p) ∈ rangeTable p K := by
  intro c hc
  obtain ⟨chunk, hchunk, rfl⟩ := List.mem_map.mp hc
  have hlen : chunk.length ≤ K :=
    chunks_mem_length_le K hK (leBits v N) chunk hchunk
  have hlt : lebs2ip chunk < 2 ^ K := by
    rw [lebs2ip_eq_leVal]
    calc leVal chunk < 2 ^ chunk.length := leVal_lt chunk
      _ ≤ 2 ^ K := Nat.pow_le_pow_right (by norm_num) hlen
  refine ⟨hlt, ?_⟩
  unfold rangeTable rangeTableLoad
  exact List.mem_map.mpr ⟨lebs2ip chunk, List.mem_range.mpr hlt, rfl⟩

theorem limbs_lt_and_in_table_witness :
    ((2 : ℕ) ≠ 0)
      ∧ ∀ c ∈ natLimbs 13 4 2,
          c < 2 ^ 2 ∧ ((c : ℕ) : ZMod 101) ∈ rangeTable 101 2 :=
  ⟨by decide, limbs_lt_and_in_table 101 13 4 2 (by decide)⟩

/-! ## Claims about the Range Lookup Table -/

instance fact_prime_17 : Fact (Nat.Prime 17) := ⟨by norm_num⟩

/-- C4: for all `K >= 1` (with `2^K` no larger than the field size, the
regime in which the table is used), the Range Lookup Table built with
parameter `K` contains exactly `2^K` entries, pairwise distinct, the entry
at index `i` being the field encoding of the integer `i`. -/
theorem range_table_entries (p : ℕ) [hp : Fact p.Prime] (K : ℕ)
    (_hK : 1 ≤ K) (hsize : 2 ^ K ≤ p) :
    (rangeTable p K).length = 2 ^ K
    ∧ (∀ (i : ℕ) (h : i < (rangeTable p K).length),
        (rangeTable p K).get ⟨i, h⟩ = ((i : ℕ) : ZMod p))
    ∧ (rangeTable p K).Nodup := by
  haveI : NeZero p := ⟨hp.out.ne_zero⟩
  refine ⟨by simp [rangeTable, rangeTableLoad], ?_, ?_⟩
  · intro i h
    simp [rangeTable, rangeTableLoad]
  · unfold rangeTable rangeTableLoad
    apply List.Nodup.map_on
    · intro x hx y hy hxy
      have hx' : x < p := lt_of_lt_of_le (List.mem_range.mp hx) hsize
      have hy' : y < p := lt_of_lt_of_le (List.mem_range.mp hy) hsize
      have := congrArg ZMod.val hxy
      rwa [ZMod.val_cast_of_lt hx', ZMod.val_cast_of_lt hy'] at this
    · exact List.nodup_range (2 ^ K)

theorem range_table_entries_witness :
    ((1 : ℕ) ≤ 4 ∧ 2 ^ 4 ≤ 17)
      ∧ ((rangeTable 17 4).length = 2 ^ 4
        ∧ (∀ (i : ℕ) (h : i < (rangeTable 17 4).length),
            (rangeTable 17 4).get ⟨i, h⟩ = ((i : ℕ) : ZMod 17))
        ∧ (rangeTable 17 4).Nodup) :=
  ⟨⟨by decide, by decide⟩, range_table_entries 17 4 (by decide) (by decide)⟩

/-! ## The Small Range Check gate (example1.rs / example2.rs) -/

instance fact_prime_7 : Fact (Nat.Prime 7) := ⟨by norm_num⟩

/-- The `range_check` closure of src/range_check/example1.rs (lines 31-35):
`(0..range).fold(value, |acc, num| acc * (num - value))`. -/
def range_check_ex1 {F : Type} [Field F] (range : ℕ) (value : F) : F :=
  (List.range range).foldl (fun acc num => acc * (((num : ℕ) : F) - value))
    value

/-- The `range_check` closure of src/range_check/example2.rs (lines 70-74):
`(1..range).fold(value, |acc, num| acc * (num - value))`. -/
def range_check_ex2 {F : Type} [Field F] (range : ℕ) (value : F) : F :=
  (List.range' 1 (range - 1)).foldl
    (fun acc num => acc * (((num : ℕ) : F) - value)) value

/-- Modelled from the spec (§4.2): the degree-`R` product
`∏_{j=0}^{R-1} (j - value)` that the spec says the gate expression equals;
kept separate from the source-derived folds above for the refinement
comparison in C6. -/
def small_range_check_spec {F : Type} [Field F] (range : ℕ) (value : F) : F :=
  (List.map (fun j => ((j : ℕ) : F) - value) (List.range range)).prod

theorem foldl_mul_factor {F : Type} [Field F] (f : ℕ → F) :
    ∀ (l : List ℕ) (a : F),
      l.foldl (fun acc num => acc * f num) a = a * (List.map f l).prod
  | [], a => by simp
  | x :: xs, a => by
    simp only [List.foldl_cons, List.map_cons, List.prod_cons]
    rw [foldl_mul_factor f xs (a * f x)]
    ring

theorem map_sub_prod_eq_zero_iff {F : Type} [Field F] (v : F) (l : List ℕ) :
    (List.map (fun j => ((j : ℕ) : F) - v) l).prod = 0
      ↔ ∃ j ∈ l, v = ((j : ℕ) : F) := by
  rw [List.prod_eq_zero_iff]
  constructor
  · intro hmem
    obtain ⟨j, hj, hje⟩ := List.mem_map.mp hmem
    exact ⟨j, hj, (sub_eq_zero.mp hje).symm⟩
  · rintro ⟨j, hj, rfl⟩
    exact List.mem_map.mpr ⟨j, hj, sub_self _⟩

/-- C5: for every positive `R` and every field element `value`, the Small
Range Check constraint polynomial (both the example1 and the example2
variant) evaluates to zero iff `value` equals one of the field encodings of
`0, 1, ..., R-1`. -/
theorem small_range_check_iff {F : Type} [Field F] (R : ℕ) (hR : 0 < R)
    (v : F) :
    (range_check_ex1 R v = 0 ↔ ∃ j, j < R ∧ v = ((j : ℕ) : F))
    ∧ (range_check_ex2 R v = 0 ↔ ∃ j, j < R ∧ v = ((j : ℕ) : F)) := by
  constructor
  · rw [range_check_ex1, foldl_mul_factor, mul_eq_zero,
      map_sub_prod_eq_zero_iff]
    constructor
    · rintro (h0 | ⟨j, hj, hje⟩)
      · exact ⟨0, hR, by simp [h0]⟩
      · exact ⟨j, List.mem_range.mp hj, hje⟩
    · rintro ⟨j, hjR, rfl⟩
      exact Or.inr ⟨j, List.mem_range.mpr hjR, rfl⟩
  · rw [range_check_ex2, foldl_mul_factor, mul_eq_zero,
      map_sub_prod_eq_zero_iff]
    constructor
    · rintro (h0 | ⟨j, hj, hje⟩)
      · exact ⟨0, hR, by simp [h0]⟩
      · obtain ⟨hj1, hj2⟩ := List.mem_range'_1.mp hj
        exact ⟨j, by omega, hje⟩
    · rintro ⟨j, hjR, rfl⟩
      rcases Nat.eq_zero_or_pos j with h0 | hpos
      · subst h0; exact Or.inl (by simp)
      · exact Or.inr ⟨j, List.mem_range'_1.mpr ⟨hpos, by omega⟩, rfl⟩

theorem small_range_check_iff_witness :
    ((0 : ℕ) < 3)
      ∧ ((range_check_ex1 3 (2 : ZMod 7) = 0
            ↔ ∃ j, j < 3 ∧ (2 : ZMod 7) = ((j : ℕ) : ZMod 7))
        ∧ (range_check_ex2 3 (2 : ZMod 7) = 0
            ↔ ∃ j, j < 3 ∧ (2 : ZMod 7) = ((j : ℕ) : ZMod 7))) :=
  ⟨by decide, small_range_check_iff 3 (by decide) (2 : ZMod 7)⟩

/-- C6 counterexample: the gate expression does NOT equal the spec's
product `∏_{j=0}^{R-1} (j - value)` as a polynomial in `value`: at `R = 2`,
`value = 2` over `GF(7)`, example1's fold gives `2*(0-2)*(1-2) = 4` and
example2's gives `2*(1-2) = 5`, while the spec product is
`(0-2)*(1-2) = 2`. -/
theorem small_range_check_spec_counterexample :
    range_check_ex1 2 (2 : ZMod 7) ≠ small_range_check_spec 2 (2 : ZMod 7)
    ∧ range_check_ex2 2 (2 : ZMod 7)
        ≠ small_range_check_spec 2 (2 : ZMod 7) := by
  constructor
  · decide
  · decide

/-- C6 (amended): the constraint expression built by the Small Range Check
gate for range `R > 0` equals `value * ∏_{j=0}^{R-1} (j - value)` (degree
`R + 1`) in the example1 variant, and `value * ∏_{j=1}^{R-1} (j - value)
= -∏_{j=0}^{R-1} (j - value)` (degree `R`, the spec's product negated) in
the example2 variant; both vanish exactly on `{0, ..., R-1}`. -/
theorem small_range_check_expr_forms {F : Type} [Field F] (R : ℕ)
    (hR : 0 < R) (v : F) :
    range_check_ex1 R v = v * small_range_check_spec R v
    ∧ range_check_ex2 R v = - small_range_check_spec R v := by
  constructor
  · rw [range_check_ex1, foldl_mul_factor, small_range_check_spec]
  · obtain ⟨Rp, rfl⟩ : ∃ Rp, R = Rp + 1 := ⟨R - 1, by omega⟩
    have hspec : small_range_check_spec (Rp + 1) v
        = (((0 : ℕ) : F) - v)
          * (List.map (fun j => (((j + 1 : ℕ)) : F) - v)
              (List.range Rp)).prod := by
      rw [small_range_check_spec, List.range_succ_eq_map, List.map_cons,
        List.prod_cons, List.map_map]
      rfl
    have hmaps : List.map ((fun j => ((j : ℕ) : F) - v) ∘ (fun j => 1 + j))
          (List.range Rp)
        = List.map (fun j => (((j + 1 : ℕ)) : F) - v) (List.range Rp) := by
      apply List.map_congr_left
      intro j _
      simp [Function.comp, Nat.add_comm]
    have hex2 : range_check_ex2 (Rp + 1) v
        = v * (List.map (fun j => (((j + 1 : ℕ)) : F) - v)
            (List.range Rp)).prod := by
      rw [range_check_ex2, foldl_mul_factor, Nat.add_sub_cancel,
        List.range'_eq_map_range, List.map_map, hmaps]
    rw [hspec, hex2]
    push_cast
    ring

theorem small_range_check_expr_forms_witness :
    ((0 : ℕ) < 3)
      ∧ (range_check_ex1 3 (5 : ZMod 7)
            = (5 : ZMod 7) * small_range_check_spec 3 (5 : ZMod 7)
        ∧ range_check_ex2 3 (5 : ZMod 7)
            = - small_range_check_spec 3 (5 : ZMod 7)) :=
  ⟨by decide, small_range_check_expr_forms 3 (by decide) (5 : ZMod 7)⟩

/-! ## The Zero Test and Equality Test gadgets -/

/-- `IsZeroChip::assign` (src/gadgets/is_zero.rs, lines 55-64): the witness
`value_inv = value.invert().unwrap_or(F::zero())` — the multiplicative
inverse when `value` is invertible, the zero sentinel otherwise; a total
pure function of `value`. -/
def is_zero_inv {F : Type} [Field F] [DecidableEq F] (value : F) : F :=
  if value = 0 then 0 else value⁻¹

/-- The `is_zero_expr` of `IsZeroChip::configure` (src/gadgets/is_zero.rs,
line 45): `1 - value * value_inv`. -/
def is_zero_expr_at {F : Type} [Field F] (value value_inv : F) : F :=
  1 - value * value_inv

/-- The single polynomial constraint of the `is_zero` gate
(src/gadgets/is_zero.rs, line 46): `q_enable * value * is_zero_expr`. -/
def is_zero_gate {F : Type} [Field F] (q_enable value value_inv : F) : F :=
  q_enable * value * is_zero_expr_at value value_inv

/-- C7: the Zero Test's witness `value_inv` is a total pure function of
`value` (inverse when invertible, zero sentinel otherwise), the resulting
indicator `1 - value * value_inv` is `1` when `value = 0` and `0`
otherwise, and the gate constraint `value * indicator = 0` is always
satisfied by the honest witness. -/
theorem is_zero_indicator_correct {F : Type} [Field F] [DecidableEq F]
    (value : F) :
    is_zero_expr_at value (is_zero_inv value) = (if value = 0 then 1 else 0)
    ∧ value * is_zero_expr_at value (is_zero_inv value) = 0 := by
  by_cases h : value = 0
  · simp [is_zero_expr_at, is_zero_inv, h]
  · simp [is_zero_expr_at, is_zero_inv, h, mul_inv_cancel₀ h]

/-- C8: with the selector enabled, the Equality Test's two constraints —
the composed `is_zero(a - b)` gate and the additional unconditional
`selector * (a - b) = 0` gate of `IsEqualChip::configure` — are jointly
satisfied iff `a = b`, for every choice of the auxiliary inverse witness:
the second gate hard-enforces equality whenever the gadget is enabled. -/
theorem is_equal_enforces_equality {F : Type} [Field F]
    (a b value_inv : F) :
    (is_zero_gate 1 (a - b) value_inv = 0 ∧ 1 * (a - b) = 0) ↔ a = b := by
  constructor
  · rintro ⟨-, h2⟩
    have h3 : a - b = 0 := by simpa using h2
    exact sub_eq_zero.mp h3
  · rintro rfl
    simp [is_zero_gate, is_zero_expr_at]

end Halo2Examples
